import Mathlib

/-!
Verification of `question3.py` (Pareto-efficiency checker and cycle-canceling
improver for fractional allocations).

Matrices are embedded as functions `ℕ → ℕ → ℚ` together with explicit
dimensions `numPlayers`/`numItems` (the Python code stores `list[list[float]]`;
exact rational arithmetic stands for the float arithmetic, and `Real.log`
stands for `math.log`).

The two library routines the source calls are modelled from their documented
behaviour:
  * `nx.negative_edge_cycle(G)` is `True` exactly when `G` has a
    negative-weight cycle (it runs Bellman–Ford from a fresh super-source
    connected to every node);
  * `nx.find_negative_cycle(G, s)` returns a simple negative-weight cycle
    reachable from `s`, written as a node list whose first and last entries
    coincide, and raises `NetworkXError` (NOT `NetworkXNoCycle`, which is a
    subclass of `NetworkXUnfeasible` and unrelated to `NetworkXError`) when no
    negative cycle is reachable from `s`.
-/

namespace Question3

/-- A players × items matrix, as in the Python `list[list[float]]`, embedded as
a total function; entries outside the declared dimensions are never read by the
algorithms below. -/
abbrev Mat : Type := ℕ → ℕ → ℚ

/-- `indices = [k for k in range(num_items) if allocations[i][k] != 0]` —
the items player `i` holds a nonzero share of. -/
def indicesOf (numItems : ℕ) (allocations : Mat) (i : ℕ) : List ℕ :=
  (List.range numItems).filter (fun k => decide (allocations i k ≠ 0))

/-- `math.log(valuations[i][k] / valuations[j][k])`. -/
noncomputable def logRatio (valuations : Mat) (i j k : ℕ) : ℝ :=
  Real.log ((valuations i k : ℝ) / (valuations j k : ℝ))

/-- Python's `min` over a nonempty sequence, folded from a first element. -/
def minFrom {α : Type} [LinearOrder α] (x : α) (l : List α) : α :=
  l.foldl min x

/-- Python's `min(seq)`; the Python call errors on an empty sequence, which the
source rules out before calling, so the empty case returns a default. -/
def listMin {α : Type} [LinearOrder α] [Inhabited α] : List α → α
  | [] => default
  | x :: xs => minFrom x xs

/-- Python's `min(seq, key=f)` on a nonempty sequence: the FIRST element
attaining the least key (later elements replace the best only on a strictly
smaller key). -/
def minKeyFrom {α β : Type} [LinearOrder β] (f : α → β) : α → List α → α
  | best, [] => best
  | best, x :: xs =>
      if f x < f best then minKeyFrom f x xs else minKeyFrom f best xs

/-- Python's `min(seq, key=f)`; default for the empty case the source never
reaches. -/
def minKeyD {α β : Type} [LinearOrder β] (f : α → β) (d : α) : List α → α
  | [] => d
  | x :: xs => minKeyFrom f x xs

/-- `min_ratio_log = min(math.log(valuations[i][k] / valuations[j][k]) for k in
indices)` — the weight of edge `(i, j)`. -/
noncomputable def minRatioLog (numItems : ℕ) (valuations allocations : Mat)
    (i j : ℕ) : ℝ :=
  listMin ((indicesOf numItems allocations i).map (logRatio valuations i j))

/-- `item = min(indices, key=lambda k: math.log(valuations[i][k] /
valuations[j][k]))` — the critical item stored in `item_dict[(i, j)]`. -/
noncomputable def edgeItem (numItems : ℕ) (valuations allocations : Mat)
    (i j : ℕ) : ℕ :=
  minKeyD (fun k => logRatio valuations i j k) 0
    (indicesOf numItems allocations i)

/-- The ordered pairs `(i, j)` the double loop appends to `edges`, in loop
order (`i` outer, `j` inner): `i ≠ j` and player `i` holds at least one item. -/
def edgeList (numPlayers numItems : ℕ) (allocations : Mat) : List (ℕ × ℕ) :=
  (List.range numPlayers).flatMap (fun i =>
    (List.range numPlayers).filterMap (fun j =>
      if i ≠ j ∧ indicesOf numItems allocations i ≠ [] then some (i, j)
      else none))

/-- The graph `G` has an edge `i → j`. -/
def IsEdge (numPlayers numItems : ℕ) (allocations : Mat) (i j : ℕ) : Prop :=
  i < numPlayers ∧ j < numPlayers ∧ i ≠ j ∧
    indicesOf numItems allocations i ≠ []

/-- Total weight of the consecutive edges of a node list. -/
noncomputable def cycleWeight (numItems : ℕ) (valuations allocations : Mat)
    (c : List ℕ) : ℝ :=
  ((c.zip c.tail).map
    (fun p => minRatioLog numItems valuations allocations p.1 p.2)).sum

/-- A closed walk in `G`: at least one edge, first node equals last node, and
every consecutive pair is an edge. -/
def ClosedChain (numPlayers numItems : ℕ) (allocations : Mat)
    (c : List ℕ) : Prop :=
  2 ≤ c.length ∧ c.head? = c.getLast? ∧
    c.Chain' (IsEdge numPlayers numItems allocations)

/-- A negative-weight cycle of `G`, the object `nx.negative_edge_cycle`
detects. -/
def IsNegCycle (numPlayers numItems : ℕ) (valuations allocations : Mat)
    (c : List ℕ) : Prop :=
  ClosedChain numPlayers numItems allocations c ∧
    cycleWeight numItems valuations allocations c < 0

/-- `is_pareto_efficient`: builds the edges above and returns
`not nx.negative_edge_cycle(G)`, i.e. `True` iff `G` has no negative-weight
cycle. -/
def is_pareto_efficient (numPlayers numItems : ℕ)
    (valuations allocations : Mat) : Prop :=
  ¬ ∃ c, IsNegCycle numPlayers numItems valuations allocations c

/-! ### Spec-side exchange graph (for the refinement claim)

The spec's wording: "An edge `(i, j)` exists iff player `i` holds a strictly
positive fraction of at least one item (`A[i][k] > 0` for some `k`)"; the
source filters on `A[i][k] != 0` instead. -/

/-- Modelled from the spec's words: the items with `A[i][k] > 0`. -/
def specIndicesOf (numItems : ℕ) (allocations : Mat) (i : ℕ) : List ℕ :=
  (List.range numItems).filter (fun k => decide (0 < allocations i k))

/-- Spec-side edge weight: min over `k` with `A[i][k] > 0` of
`ln (V[i][k] / V[j][k])`. -/
noncomputable def specMinRatioLog (numItems : ℕ) (valuations allocations : Mat)
    (i j : ℕ) : ℝ :=
  listMin ((specIndicesOf numItems allocations i).map (logRatio valuations i j))

/-- Spec-side edge relation. -/
def SpecIsEdge (numPlayers numItems : ℕ) (allocations : Mat) (i j : ℕ) : Prop :=
  i < numPlayers ∧ j < numPlayers ∧ i ≠ j ∧
    specIndicesOf numItems allocations i ≠ []

/-- Spec-side negative cycle of the spec's exchange graph. -/
def SpecIsNegCycle (numPlayers numItems : ℕ) (valuations allocations : Mat)
    (c : List ℕ) : Prop :=
  (2 ≤ c.length ∧ c.head? = c.getLast? ∧
    c.Chain' (SpecIsEdge numPlayers numItems allocations)) ∧
  ((c.zip c.tail).map
    (fun p => specMinRatioLog numItems valuations allocations p.1 p.2)).sum < 0

/-! ### The improver `check_and_improve_pareto_effiecient` -/

/-- Reachability along edges of `G` (Bellman–Ford from a source relaxes
exactly the reachable part of the graph). -/
def Reachable (numPlayers numItems : ℕ) (allocations : Mat) (u v : ℕ) : Prop :=
  Relation.ReflTransGen (IsEdge numPlayers numItems allocations) u v

/-- A cycle `nx.find_negative_cycle(G, src)` can return: a simple negative
cycle (first node repeated at the end) whose start is reachable from `src`. -/
def FoundCycle (numPlayers numItems : ℕ) (valuations allocations : Mat)
    (src : ℕ) (c : List ℕ) : Prop :=
  IsNegCycle numPlayers numItems valuations allocations c ∧
    c.dropLast.Nodup ∧
    Reachable numPlayers numItems allocations src (c.headD 0)

/-- Write `x` at position `(p, q)` of a matrix (one Python item assignment). -/
def updateMat (A : Mat) (p q : ℕ) (x : ℚ) : Mat :=
  fun i k => if i = p ∧ k = q then x else A i k

/-- The adjustment loop
```
for i in range(len(cycle) - 1):
    u, v = cycle[i], cycle[i + 1]
    item = item_dict[(u, v)]
    allocations[v][item] += epsilon * valuations[v][item] / valuations[u][item]
    allocations[u][item] -= epsilon * valuations[v][item] / valuations[u][item]
    epsilon *= valuations[u][item] / valuations[v][item]
```
parameterised by the critical-item map `itemOf` (fixed before the loop,
computed from the ORIGINAL allocations). -/
def runCycle (valuations : Mat) (itemOf : ℕ → ℕ → ℕ) :
    Mat → ℚ → List (ℕ × ℕ) → Mat
  | A, _, [] => A
  | A, eps, (u, v) :: rest =>
      let t := itemOf u v
      let A1 := updateMat A v t (A v t + eps * valuations v t / valuations u t)
      let A2 := updateMat A1 u t
        (A1 u t - eps * valuations v t / valuations u t)
      runCycle valuations itemOf A2 (eps * (valuations u t / valuations v t))
        rest

/-- The matrix `check_and_improve_pareto_effiecient` returns when
`find_negative_cycle` returns `cycle = c`: the loop above over the consecutive
pairs of `c`, starting from `epsilon = 0.001`, with `item_dict` built from the
input allocations. -/
noncomputable def checkImproveMatrix (numItems : ℕ)
    (valuations allocations : Mat) (c : List ℕ) : Mat :=
  runCycle valuations (edgeItem numItems valuations allocations) allocations
    (1 / 1000) (c.zip c.tail)

/-! ### Exceptions

`math.log` raises `ValueError` ("math domain error") on a nonpositive
argument; a zero float denominator raises `ZeroDivisionError`; `edges[0][0]`
on an empty list raises `IndexError`; `nx.find_negative_cycle` raises
`NetworkXError` when no negative cycle is reachable from the source, and that
exception is NOT caught by `except nx.NetworkXNoCycle`. -/

inductive PyErr : Type
  | zeroDivision
  | mathDomain
  | indexError
  | networkXError
  deriving DecidableEq

/-- Evaluating `valuations[i][k] / valuations[j][k]` and then `math.log` of it:
the exceptions this can raise, in Python's order (the division first). -/
def ratioCheck (valuations : Mat) (i j k : ℕ) : Except PyErr Unit :=
  if valuations j k = 0 then .error .zeroDivision
  else if valuations i k / valuations j k ≤ 0 then .error .mathDomain
  else .ok ()

/-- Run checks left to right, stopping at the first exception. -/
def evalList : List (Except PyErr Unit) → Except PyErr Unit
  | [] => .ok ()
  | .error e :: _ => .error e
  | .ok _ :: xs => evalList xs

/-- The log-ratio evaluations the edge-building double loop performs, in
program order: for each emitted edge `(i, j)` (loop order), each `k` in
`indices` (ascending). The first failing one propagates out of both entry
points before anything else happens; the second minimisation (`item = min(...,
key=...)`) re-evaluates the same ratios and adds no new failure points. -/
def evalEdgesE (numPlayers numItems : ℕ) (valuations allocations : Mat) :
    Except PyErr Unit :=
  evalList ((edgeList numPlayers numItems allocations).flatMap (fun p =>
    (indicesOf numItems allocations p.1).map
      (fun k => ratioCheck valuations p.1 p.2 k)))

/-- `is_pareto_efficient` including its exception behaviour. -/
noncomputable def is_pareto_efficientE (numPlayers numItems : ℕ)
    (valuations allocations : Mat) : Except PyErr Prop :=
  (evalEdgesE numPlayers numItems valuations allocations).map
    (fun _ => is_pareto_efficient numPlayers numItems valuations allocations)

/-- The observable outcomes of `check_and_improve_pareto_effiecient`: return
`True`, return a matrix, or raise. -/
inductive CIOut : Type
  | retTrue
  | retMat (A : Mat)
  | raised (e : PyErr)

/-- `check_and_improve_pareto_effiecient(valuations, allocations)` as a
relation on outcomes (the only nondeterminism is which negative cycle
`find_negative_cycle` picks):
  * an exception while building the edges propagates;
  * `edges[0][0]` on an empty edge list raises `IndexError` inside the `try`,
    and `IndexError` is not `NetworkXNoCycle`, so it propagates;
  * with edges but no negative cycle reachable from `edges[0][0]`,
    `find_negative_cycle` raises `NetworkXError`, which is not
    `NetworkXNoCycle` either, so it propagates — the `return True` branch is
    unreachable;
  * otherwise the found cycle's adjustment is returned. -/
def CheckImprove (numPlayers numItems : ℕ) (valuations allocations : Mat)
    (out : CIOut) : Prop :=
  (∃ e, evalEdgesE numPlayers numItems valuations allocations = .error e ∧
    out = .raised e) ∨
  (evalEdgesE numPlayers numItems valuations allocations = .ok () ∧
    edgeList numPlayers numItems allocations = [] ∧
    out = .raised .indexError) ∨
  (evalEdgesE numPlayers numItems valuations allocations = .ok () ∧
    edgeList numPlayers numItems allocations ≠ [] ∧
    (¬ ∃ c, IsNegCycle numPlayers numItems valuations allocations c ∧
      Reachable numPlayers numItems allocations
        ((edgeList numPlayers numItems allocations).headD (0, 0)).1
        (c.headD 0)) ∧
    out = .raised .networkXError) ∨
  (evalEdgesE numPlayers numItems valuations allocations = .ok () ∧
    edgeList numPlayers numItems allocations ≠ [] ∧
    (∃ c, FoundCycle numPlayers numItems valuations allocations
        ((edgeList numPlayers numItems allocations).headD (0, 0)).1 c ∧
      out = .retMat (checkImproveMatrix numItems valuations allocations c)))

/-! ### Derived quantities the claims speak about -/

/-- Player `u`'s utility `Σ_k A[u][k] · V[u][k]`. -/
def utility (numItems : ℕ) (valuations A : Mat) (u : ℕ) : ℚ :=
  ((List.range numItems).map (fun k => A u k * valuations u k)).sum

/-- The total of item `k`'s column, `Σ_i A[i][k]`. -/
def colSum (numPlayers : ℕ) (A : Mat) (k : ℕ) : ℚ :=
  ((List.range numPlayers).map (fun i => A i k)).sum

/-- Position `(p, t)` is touched by the cycle's adjustment loop: `t` is the
critical item of some consecutive edge of `c` and `p` is one of its
endpoints. -/
def Touched (numItems : ℕ) (valuations allocations : Mat) (c : List ℕ)
    (p t : ℕ) : Prop :=
  ∃ e ∈ c.zip c.tail,
    t = edgeItem numItems valuations allocations e.1 e.2 ∧ (p = e.1 ∨ p = e.2)

/-! ### Computable rational twins of the logarithmic quantities

`Real.log` is strictly monotone on positives, so the minimum, the first
arg-min and the sign of a cycle's weight can all be read off the rational
ratios themselves; the bridge lemmas below make the `ℝ`-valued definitions
evaluable at concrete inputs. -/

/-- The least ratio `V[i][k] / V[j][k]` over the items player `i` holds. -/
def ratEdgeMin (numItems : ℕ) (valuations allocations : Mat) (i j : ℕ) : ℚ :=
  listMin ((indicesOf numItems allocations i).map
    (fun k => valuations i k / valuations j k))

/-- The first item attaining that least ratio. -/
def ratEdgeItem (numItems : ℕ) (valuations allocations : Mat) (i j : ℕ) : ℕ :=
  minKeyD (fun k => valuations i k / valuations j k) 0
    (indicesOf numItems allocations i)

/-- The product of the per-edge least ratios along a node list; a cycle's log
weight is negative iff this product is `< 1`. -/
def cycleProd (numItems : ℕ) (valuations allocations : Mat)
    (c : List ℕ) : ℚ :=
  ((c.zip c.tail).map
    (fun p => ratEdgeMin numItems valuations allocations p.1 p.2)).prod

/-! ### Generic facts about `minFrom` / `minKeyFrom` (Python's `min`) -/

theorem minFrom_cons {α : Type} [LinearOrder α] (x a : α) (l : List α) :
    minFrom x (a :: l) = minFrom (min x a) l := rfl

theorem minFrom_pos (l : List ℚ) :
    ∀ x : ℚ, 0 < x → (∀ q ∈ l, 0 < q) → 0 < minFrom x l := by
  induction l with
  | nil => intro x hx _; exact hx
  | cons a l ih =>
    intro x hx hl
    rw [minFrom_cons]
    exact ih (min x a) (lt_min hx (hl a (by simp)))
      (fun q hq => hl q (by simp [hq]))

theorem log_min_comm {a b : ℝ} (ha : 0 < a) (hb : 0 < b) :
    min (Real.log a) (Real.log b) = Real.log (min a b) := by
  rcases le_total a b with h | h
  · rw [min_eq_left ((Real.log_le_log_iff ha hb).mpr h), min_eq_left h]
  · rw [min_eq_right ((Real.log_le_log_iff hb ha).mpr h), min_eq_right h]

theorem minFrom_log (l : List ℚ) :
    ∀ x : ℚ, 0 < x → (∀ q ∈ l, 0 < q) →
      minFrom (Real.log (x : ℝ)) (l.map (fun q : ℚ => Real.log (q : ℝ))) =
        Real.log ((minFrom x l : ℚ) : ℝ) := by
  induction l with
  | nil => intro x _ _; rfl
  | cons a l ih =>
    intro x hx hl
    have ha : 0 < a := hl a (by simp)
    have hstep : minFrom (Real.log (x : ℝ))
        ((a :: l).map fun q : ℚ => Real.log (q : ℝ)) =
        minFrom (Real.log ((min x a : ℚ) : ℝ))
          (l.map fun q : ℚ => Real.log (q : ℝ)) := by
      rw [List.map_cons, minFrom_cons]
      congr 1
      rw [log_min_comm (by exact_mod_cast hx) (by exact_mod_cast ha)]
      push_cast
      rfl
    rw [hstep, ih (min x a) (lt_min hx ha) (fun q hq => hl q (by simp [hq])),
      minFrom_cons]

theorem minKeyFrom_le {α β : Type} [LinearOrder β] (f : α → β) :
    ∀ (l : List α) (x : α),
      f (minKeyFrom f x l) ≤ f x ∧ ∀ y ∈ l, f (minKeyFrom f x l) ≤ f y := by
  intro l
  induction l with
  | nil => intro x; exact ⟨le_refl _, by simp⟩
  | cons a l ih =>
    intro x
    simp only [minKeyFrom]
    by_cases h : f a < f x
    · rw [if_pos h]
      obtain ⟨h1, h2⟩ := ih a
      refine ⟨le_trans h1 h.le, ?_⟩
      intro y hy
      rcases List.mem_cons.mp hy with rfl | hy
      · exact h1
      · exact h2 y hy
    · rw [if_neg h]
      obtain ⟨h1, h2⟩ := ih x
      refine ⟨h1, ?_⟩
      intro y hy
      rcases List.mem_cons.mp hy with rfl | hy
      · exact le_trans h1 (not_lt.mp h)
      · exact h2 y hy

theorem f_minKeyFrom {α β : Type} [LinearOrder β] (f : α → β) :
    ∀ (l : List α) (x : α),
      f (minKeyFrom f x l) = minFrom (f x) (l.map f) := by
  intro l
  induction l with
  | nil => intro x; rfl
  | cons a l ih =>
    intro x
    simp only [minKeyFrom, List.map_cons, minFrom_cons]
    by_cases h : f a < f x
    · rw [if_pos h, ih a, min_eq_right h.le]
    · rw [if_neg h, ih x, min_eq_left (not_lt.mp h)]

theorem minKeyFrom_split {α β : Type} [LinearOrder β] (f : α → β) :
    ∀ (l : List α) (x : α), ∃ l1 l2, x :: l = l1 ++ minKeyFrom f x l :: l2 ∧
      ∀ y ∈ l1, f (minKeyFrom f x l) < f y := by
  intro l
  induction l with
  | nil => intro x; exact ⟨[], [], rfl, by simp⟩
  | cons a l ih =>
    intro x
    by_cases h : f a < f x
    · have hrec : minKeyFrom f x (a :: l) = minKeyFrom f a l := by
        simp only [minKeyFrom]; rw [if_pos h]
      obtain ⟨l1, l2, heq, hlt⟩ := ih a
      refine ⟨x :: l1, l2, ?_, ?_⟩
      · rw [hrec, List.cons_append, ← heq]
      · intro y hy
        rw [hrec]
        rcases List.mem_cons.mp hy with rfl | hy
        · exact lt_of_le_of_lt (minKeyFrom_le f l a).1 h
        · exact hlt y hy
    · have hrec : minKeyFrom f x (a :: l) = minKeyFrom f x l := by
        simp only [minKeyFrom]; rw [if_neg h]
      obtain ⟨l1, l2, heq, hlt⟩ := ih x
      cases l1 with
      | nil =>
        have hx : minKeyFrom f x l = x := by
          simpa using (List.cons_eq_cons.mp heq).1.symm
        refine ⟨[], a :: l, ?_, by simp⟩
        rw [hrec, hx]
        simp
      | cons z l1' =>
        rw [List.cons_append] at heq
        obtain ⟨hz, hl⟩ := List.cons_eq_cons.mp heq
        subst hz
        have hresx : f (minKeyFrom f x l) < f x := hlt x (by simp)
        refine ⟨x :: a :: l1', l2, ?_, ?_⟩
        · rw [hrec, List.cons_append, List.cons_append, ← hl]
        · intro y hy
          rw [hrec]
          rcases List.mem_cons.mp hy with rfl | hy
          · exact hresx
          rcases List.mem_cons.mp hy with rfl | hy
          · exact lt_of_lt_of_le hresx (not_lt.mp h)
          · exact hlt y (by simp [hy])

theorem minKeyFrom_log (f : ℕ → ℚ) :
    ∀ (l : List ℕ) (x : ℕ), 0 < f x → (∀ k ∈ l, 0 < f k) →
      minKeyFrom (fun k => Real.log ((f k : ℚ) : ℝ)) x l = minKeyFrom f x l := by
  intro l
  induction l with
  | nil => intro x _ _; rfl
  | cons a l ih =>
    intro x hx hl
    have ha : 0 < f a := hl a (by simp)
    have hiff : (Real.log ((f a : ℚ) : ℝ) < Real.log ((f x : ℚ) : ℝ)) ↔
        f a < f x := by
      rw [Real.log_lt_log_iff (by exact_mod_cast ha) (by exact_mod_cast hx)]
      exact_mod_cast Iff.rfl
    simp only [minKeyFrom]
    by_cases h : f a < f x
    · rw [if_pos (hiff.mpr h), if_pos h]
      exact ih a ha (fun k hk => hl k (by simp [hk]))
    · rw [if_neg (fun hc => h (hiff.mp hc)), if_neg h]
      exact ih x hx (fun k hk => hl k (by simp [hk]))

/-! ### Bridges between the `ℝ`-valued definitions and their rational twins -/

/-- Positivity of all valuation entries on the declared grid (the documented
input contract), stated over bounded lists so it is decidable at concrete
inputs. -/
def VPos (numPlayers numItems : ℕ) (V : Mat) : Prop :=
  ∀ i ∈ List.range numPlayers, ∀ k ∈ List.range numItems, 0 < V i k

/-- All allocation entries on the declared grid lie in `[0, 1]`. -/
def AIn01 (numPlayers numItems : ℕ) (A : Mat) : Prop :=
  ∀ i ∈ List.range numPlayers, ∀ k ∈ List.range numItems,
    0 ≤ A i k ∧ A i k ≤ 1

theorem VPos.pos {numPlayers numItems : ℕ} {V : Mat}
    (h : VPos numPlayers numItems V) {i k : ℕ}
    (hi : i < numPlayers) (hk : k < numItems) : 0 < V i k :=
  h i (List.mem_range.mpr hi) k (List.mem_range.mpr hk)

theorem mem_indicesOf {numItems : ℕ} {A : Mat} {i k : ℕ} :
    k ∈ indicesOf numItems A i ↔ k < numItems ∧ A i k ≠ 0 := by
  simp [indicesOf, List.mem_filter, List.mem_range]

theorem logRatio_eq_log_cast (V : Mat) (i j k : ℕ) :
    logRatio V i j k = Real.log (((V i k / V j k : ℚ) : ℝ)) := by
  rw [logRatio, Rat.cast_div]

/-- Ratios evaluated along an edge are positive when the valuation entries on
the grid are. -/
theorem ratios_pos {numPlayers numItems : ℕ} {V A : Mat} {i j : ℕ}
    (hV : VPos numPlayers numItems V) (hi : i < numPlayers)
    (hj : j < numPlayers) :
    ∀ k ∈ indicesOf numItems A i, 0 < V i k / V j k := by
  intro k hk
  obtain ⟨hkn, _⟩ := mem_indicesOf.mp hk
  exact div_pos (hV.pos hi hkn) (hV.pos hj hkn)

theorem minRatioLog_eq_log {numItems : ℕ} {V A : Mat} {i j : ℕ}
    (hne : indicesOf numItems A i ≠ [])
    (hpos : ∀ k ∈ indicesOf numItems A i, 0 < V i k / V j k) :
    minRatioLog numItems V A i j =
      Real.log ((ratEdgeMin numItems V A i j : ℚ) : ℝ) ∧
    0 < ratEdgeMin numItems V A i j := by
  rcases hl : indicesOf numItems A i with _ | ⟨k0, ks⟩
  · exact absurd hl hne
  have hk0 : 0 < V i k0 / V j k0 := hpos k0 (by rw [hl]; simp)
  have hks : ∀ q ∈ ks.map (fun k => V i k / V j k), 0 < q := by
    intro q hq
    obtain ⟨k, hk, rfl⟩ := List.mem_map.mp hq
    exact hpos k (by rw [hl]; simp [hk])
  constructor
  · rw [minRatioLog, ratEdgeMin, hl]
    rw [show List.map (logRatio V i j) (k0 :: ks)
          = ((k0 :: ks).map fun k => (V i k / V j k : ℚ)).map
              (fun q : ℚ => Real.log (q : ℝ)) by
        rw [List.map_map]
        exact List.map_congr_left fun k _ => logRatio_eq_log_cast V i j k]
    simp only [List.map_cons, listMin]
    exact minFrom_log _ _ hk0 hks
  · rw [ratEdgeMin, hl]
    simp only [List.map_cons, listMin]
    exact minFrom_pos _ _ hk0 hks

theorem edgeItem_eq_rat {numItems : ℕ} {V A : Mat} {i j : ℕ}
    (hpos : ∀ k ∈ indicesOf numItems A i, 0 < V i k / V j k) :
    edgeItem numItems V A i j = ratEdgeItem numItems V A i j := by
  rcases hl : indicesOf numItems A i with _ | ⟨k0, ks⟩
  · rw [edgeItem, ratEdgeItem, hl]
    rfl
  · rw [edgeItem, ratEdgeItem, hl]
    simp only [minKeyD, logRatio_eq_log_cast]
    exact minKeyFrom_log (fun k => V i k / V j k) ks k0
      (hpos k0 (by rw [hl]; simp))
      (fun k hk => hpos k (by rw [hl]; simp [hk]))

/-- A `Chain'` holds at every consecutive pair of the list. -/
theorem chain'_zip {R : ℕ → ℕ → Prop} :
    ∀ c : List ℕ, c.Chain' R → ∀ p ∈ c.zip c.tail, R p.1 p.2 := by
  intro c
  induction c with
  | nil => simp
  | cons a c ih =>
    intro h p hp
    cases c with
    | nil => simp at hp
    | cons b c =>
      rw [List.chain'_cons] at h
      simp only [List.tail_cons, List.zip_cons_cons, List.mem_cons] at hp
      rcases hp with rfl | hp
      · exact h.1
      · exact ih h.2 p hp

/-- Every node of a closed chain with at least one edge is a player index. -/
theorem chain_nodes_lt {numPlayers numItems : ℕ} {A : Mat} :
    ∀ c : List ℕ, 2 ≤ c.length →
      c.Chain' (IsEdge numPlayers numItems A) → ∀ x ∈ c, x < numPlayers := by
  intro c
  induction c with
  | nil => simp
  | cons a c ih =>
    intro hlen h x hx
    cases c with
    | nil => simp at hlen
    | cons b c =>
      rw [List.chain'_cons] at h
      obtain ⟨ha, hb, _, _⟩ := h.1
      rcases List.mem_cons.mp hx with rfl | hx
      · exact ha
      · cases c with
        | nil =>
          rw [List.mem_singleton.mp hx]
          exact hb
        | cons d c' => exact ih (by simp) h.2 x hx

/-- Sum of logs of positive rationals is the log of their product. -/
theorem sum_log_prod (g : ℕ × ℕ → ℚ) :
    ∀ l : List (ℕ × ℕ), (∀ p ∈ l, 0 < g p) →
      ((l.map fun p => Real.log ((g p : ℚ) : ℝ)).sum
        = Real.log (((l.map g).prod : ℚ) : ℝ)) ∧ 0 < (l.map g).prod := by
  intro l
  induction l with
  | nil =>
    intro _
    constructor
    · simp [Real.log_one]
    · simp
  | cons a l ih =>
    intro h
    have ha := h a (by simp)
    obtain ⟨ih1, ih2⟩ := ih (fun p hp => h p (by simp [hp]))
    constructor
    · simp only [List.map_cons, List.sum_cons, List.prod_cons, ih1]
      rw [← Real.log_mul (by exact_mod_cast ha.ne') (by exact_mod_cast ih2.ne')]
      push_cast
      ring_nf
    · simp only [List.map_cons, List.prod_cons]
      exact mul_pos ha ih2

/-- The weight of a chain of edges is the log of the product of the per-edge
least ratios (valuations positive on the grid). -/
theorem cycleWeight_eq_log {numPlayers numItems : ℕ} {V A : Mat}
    (hV : VPos numPlayers numItems V) {c : List ℕ}
    (hch : c.Chain' (IsEdge numPlayers numItems A)) :
    cycleWeight numItems V A c =
      Real.log ((cycleProd numItems V A c : ℚ) : ℝ) ∧
    0 < cycleProd numItems V A c := by
  have hpairs : ∀ p ∈ c.zip c.tail, IsEdge numPlayers numItems A p.1 p.2 :=
    chain'_zip c hch
  have hmap : (c.zip c.tail).map
      (fun p => minRatioLog numItems V A p.1 p.2) =
      (c.zip c.tail).map
        (fun p => Real.log ((ratEdgeMin numItems V A p.1 p.2 : ℚ) : ℝ)) := by
    apply List.map_congr_left
    intro p hp
    obtain ⟨h1, h2, _, hne⟩ := hpairs p hp
    exact (minRatioLog_eq_log hne (ratios_pos hV h1 h2)).1
  have hpos : ∀ p ∈ c.zip c.tail, 0 < ratEdgeMin numItems V A p.1 p.2 := by
    intro p hp
    obtain ⟨h1, h2, _, hne⟩ := hpairs p hp
    exact (minRatioLog_eq_log hne (ratios_pos hV h1 h2)).2
  obtain ⟨hsum, hprod⟩ :=
    sum_log_prod (fun p => ratEdgeMin numItems V A p.1 p.2) (c.zip c.tail) hpos
  exact ⟨by rw [cycleWeight, hmap]; exact hsum, hprod⟩

/-- A negative cycle is a closed chain whose product of least ratios is
below one. -/
theorem isNegCycle_iff_prod {numPlayers numItems : ℕ} {V A : Mat}
    (hV : VPos numPlayers numItems V) (c : List ℕ) :
    IsNegCycle numPlayers numItems V A c ↔
      ClosedChain numPlayers numItems A c ∧ cycleProd numItems V A c < 1 := by
  constructor
  · rintro ⟨hcc, hneg⟩
    obtain ⟨heq, hpos⟩ := cycleWeight_eq_log hV hcc.2.2
    rw [heq] at hneg
    refine ⟨hcc, ?_⟩
    have := (Real.log_neg_iff (by exact_mod_cast hpos)).mp hneg
    exact_mod_cast this
  · rintro ⟨hcc, hlt⟩
    obtain ⟨heq, hpos⟩ := cycleWeight_eq_log hV hcc.2.2
    refine ⟨hcc, ?_⟩
    rw [heq]
    exact (Real.log_neg_iff (by exact_mod_cast hpos)).mpr (by exact_mod_cast hlt)

/-- If every edge's least ratio is at least one, no negative cycle exists. -/
theorem pareto_of_min_ge_one {numPlayers numItems : ℕ} {V A : Mat}
    (hV : VPos numPlayers numItems V)
    (h : ∀ i j, IsEdge numPlayers numItems A i j →
      1 ≤ ratEdgeMin numItems V A i j) :
    is_pareto_efficient numPlayers numItems V A := by
  rintro ⟨c, hneg⟩
  obtain ⟨⟨hlen, hcl, hch⟩, hlt⟩ := (isNegCycle_iff_prod hV c).mp hneg
  have : 1 ≤ cycleProd numItems V A c := by
    apply List.one_le_prod
    intro x hx
    obtain ⟨p, hp, rfl⟩ := List.mem_map.mp hx
    exact h p.1 p.2 (chain'_zip c hch p hp)
  exact absurd hlt (not_lt.mpr this)

/-- The source graph depends on the allocations only through `indicesOf` at
player rows: same nonzero pattern, same negative cycles. -/
theorem negCycle_congr {numPlayers numItems : ℕ} {V A B : Mat}
    (hind : ∀ i, i < numPlayers →
      indicesOf numItems A i = indicesOf numItems B i) :
    ∀ c, IsNegCycle numPlayers numItems V A c →
      IsNegCycle numPlayers numItems V B c := by
  intro c hneg
  obtain ⟨⟨hlen, hcl, hch⟩, hlt⟩ := hneg
  have hedge : ∀ i j, IsEdge numPlayers numItems A i j →
      IsEdge numPlayers numItems B i j := by
    rintro i j ⟨h1, h2, h3, h4⟩
    exact ⟨h1, h2, h3, by rw [← hind i h1]; exact h4⟩
  have hch' : c.Chain' (IsEdge numPlayers numItems B) :=
    List.Chain'.imp (fun a b => hedge a b) hch
  refine ⟨⟨hlen, hcl, hch'⟩, ?_⟩
  have hw : cycleWeight numItems V B c = cycleWeight numItems V A c := by
    rw [cycleWeight, cycleWeight]
    apply congrArg
    apply List.map_congr_left
    intro p hp
    obtain ⟨h1, _, _, _⟩ := chain'_zip c hch p hp
    rw [minRatioLog, minRatioLog, hind p.1 h1]
  rw [hw]
  exact hlt

/-- The spec's graph (edges from `A[i][k] > 0`) has the same negative cycles
as the source's (edges from `A[i][k] ≠ 0`) whenever `indicesOf` and
`specIndicesOf` agree on player rows. -/
theorem negCycle_spec_of_src {numPlayers numItems : ℕ} {V A : Mat}
    (hind : ∀ i, i < numPlayers →
      indicesOf numItems A i = specIndicesOf numItems A i) :
    ∀ c, IsNegCycle numPlayers numItems V A c →
      SpecIsNegCycle numPlayers numItems V A c := by
  intro c hneg
  obtain ⟨⟨hlen, hcl, hch⟩, hlt⟩ := hneg
  have hedge : ∀ i j, IsEdge numPlayers numItems A i j →
      SpecIsEdge numPlayers numItems A i j := by
    rintro i j ⟨h1, h2, h3, h4⟩
    exact ⟨h1, h2, h3, by rw [← hind i h1]; exact h4⟩
  refine ⟨⟨hlen, hcl, List.Chain'.imp (fun a b => hedge a b) hch⟩, ?_⟩
  have hw : ((c.zip c.tail).map
      (fun p => specMinRatioLog numItems V A p.1 p.2)).sum
      = cycleWeight numItems V A c := by
    rw [cycleWeight]
    apply congrArg
    apply List.map_congr_left
    intro p hp
    obtain ⟨h1, _, _, _⟩ := chain'_zip c hch p hp
    rw [specMinRatioLog, minRatioLog, hind p.1 h1]
  rw [hw]
  exact hlt

theorem negCycle_src_of_spec {numPlayers numItems : ℕ} {V A : Mat}
    (hind : ∀ i, i < numPlayers →
      indicesOf numItems A i = specIndicesOf numItems A i) :
    ∀ c, SpecIsNegCycle numPlayers numItems V A c →
      IsNegCycle numPlayers numItems V A c := by
  intro c hneg
  obtain ⟨⟨hlen, hcl, hch⟩, hlt⟩ := hneg
  have hedge : ∀ i j, SpecIsEdge numPlayers numItems A i j →
      IsEdge numPlayers numItems A i j := by
    rintro i j ⟨h1, h2, h3, h4⟩
    exact ⟨h1, h2, h3, by rw [hind i h1]; exact h4⟩
  have hch' : c.Chain' (IsEdge numPlayers numItems A) :=
    List.Chain'.imp (fun a b => hedge a b) hch
  refine ⟨⟨hlen, hcl, hch'⟩, ?_⟩
  have hpairs := chain'_zip c hch
  have hw : cycleWeight numItems V A c = ((c.zip c.tail).map
      (fun p => specMinRatioLog numItems V A p.1 p.2)).sum := by
    rw [cycleWeight]
    apply congrArg
    apply List.map_congr_left
    intro p hp
    obtain ⟨h1, _, _, _⟩ := hpairs p hp
    rw [specMinRatioLog, minRatioLog, hind p.1 h1]
  rw [hw]
  exact hlt

/-- Under nonnegative allocation entries the two filters agree. -/
theorem indicesOf_eq_spec {numPlayers numItems : ℕ} {A : Mat}
    (hA : AIn01 numPlayers numItems A) :
    ∀ i, i < numPlayers → indicesOf numItems A i = specIndicesOf numItems A i := by
  intro i hi
  apply List.filter_congr
  intro k hk
  have h0 := (hA i (List.mem_range.mpr hi) k hk).1
  simp only [decide_eq_decide]
  constructor
  · intro h
    exact lt_of_le_of_ne h0 (Ne.symm h)
  · intro h
    exact ne_of_gt h

theorem mem_edgeList {numPlayers numItems : ℕ} {A : Mat} {p : ℕ × ℕ} :
    p ∈ edgeList numPlayers numItems A ↔
      IsEdge numPlayers numItems A p.1 p.2 := by
  obtain ⟨i, j⟩ := p
  simp only [edgeList, List.mem_flatMap, List.mem_filterMap, List.mem_range,
    Option.ite_none_right_eq_some, Option.some.injEq, IsEdge]
  constructor
  · rintro ⟨i', hi', j', hj', ⟨hne, hnn⟩, heq⟩
    obtain ⟨rfl, rfl⟩ := Prod.mk.injEq .. |>.mp heq
    exact ⟨hi', hj', hne, hnn⟩
  · rintro ⟨hi, hj, hne, hnn⟩
    exact ⟨i, hi, j, hj, ⟨hne, hnn⟩, rfl⟩

/-! ### Facts about the exception model -/

theorem evalList_ok_iff :
    ∀ l : List (Except PyErr Unit), evalList l = .ok () ↔ ∀ x ∈ l, x = .ok () := by
  intro l
  induction l with
  | nil => simp [evalList]
  | cons a l ih =>
    cases a with
    | error e =>
      simp only [evalList, List.mem_cons]
      constructor
      · intro h; exact absurd h (by simp)
      · intro h; exact absurd (h _ (Or.inl rfl)) (by simp)
    | ok u =>
      cases u
      simp only [evalList, List.mem_cons, ih]
      constructor
      · intro h x hx
        rcases hx with rfl | hx
        · rfl
        · exact h x hx
      · intro h x hx
        exact h x (Or.inr hx)

theorem evalList_ok_or_error :
    ∀ l : List (Except PyErr Unit),
      evalList l = .ok () ∨ ∃ e, evalList l = .error e ∧ .error e ∈ l := by
  intro l
  induction l with
  | nil => exact .inl rfl
  | cons a l ih =>
    cases a with
    | error e => exact .inr ⟨e, rfl, by simp⟩
    | ok u =>
      cases u
      rcases ih with h | ⟨e, h1, h2⟩
      · exact .inl h
      · exact .inr ⟨e, h1, by simp [h2]⟩

/-- A position the edge-building loop evaluates a ratio at: `(i, j)` is an
emitted edge and `k` one of the items player `i` holds. -/
def EvalPos (numPlayers numItems : ℕ) (A : Mat) (i j k : ℕ) : Prop :=
  (i, j) ∈ edgeList numPlayers numItems A ∧ k ∈ indicesOf numItems A i

theorem mem_evalEdges_list {numPlayers numItems : ℕ} {V A : Mat}
    {x : Except PyErr Unit} :
    x ∈ (edgeList numPlayers numItems A).flatMap (fun p =>
      (indicesOf numItems A p.1).map (fun k => ratioCheck V p.1 p.2 k)) ↔
    ∃ i j k, EvalPos numPlayers numItems A i j k ∧ x = ratioCheck V i j k := by
  simp only [List.mem_flatMap, List.mem_map, EvalPos]
  constructor
  · rintro ⟨⟨i, j⟩, hp, k, hk, rfl⟩
    exact ⟨i, j, k, ⟨hp, hk⟩, rfl⟩
  · rintro ⟨i, j, k, ⟨hp, hk⟩, rfl⟩
    exact ⟨(i, j), hp, k, hk, rfl⟩

theorem ratioCheck_cases (V : Mat) (i j k : ℕ) :
    (ratioCheck V i j k = .ok () ∧ V j k ≠ 0 ∧ 0 < V i k / V j k) ∨
    (ratioCheck V i j k = .error .zeroDivision ∧ V j k = 0) ∨
    (ratioCheck V i j k = .error .mathDomain ∧ V i k / V j k ≤ 0) := by
  rw [ratioCheck]
  by_cases h0 : V j k = 0
  · rw [if_pos h0]
    exact .inr (.inl ⟨rfl, h0⟩)
  · rw [if_neg h0]
    by_cases h1 : V i k / V j k ≤ 0
    · rw [if_pos h1]
      exact .inr (.inr ⟨rfl, h1⟩)
    · rw [if_neg h1]
      exact .inl ⟨rfl, h0, not_le.mp h1⟩

/-- With every evaluated denominator nonzero and some evaluated ratio
nonpositive, edge construction stops with the math-domain error. -/
theorem evalEdgesE_mathDomain {numPlayers numItems : ℕ} {V A : Mat}
    (hden : ∀ i j k, EvalPos numPlayers numItems A i j k → V j k ≠ 0)
    (hbad : ∃ i j k, EvalPos numPlayers numItems A i j k ∧ V i k / V j k ≤ 0) :
    evalEdgesE numPlayers numItems V A = .error .mathDomain := by
  obtain ⟨i, j, k, hpos, hk⟩ := hbad
  have hnotok : evalEdgesE numPlayers numItems V A ≠ .ok () := by
    rw [evalEdgesE, Ne, evalList_ok_iff]
    intro hall
    have := hall (ratioCheck V i j k)
      (mem_evalEdges_list.mpr ⟨i, j, k, hpos, rfl⟩)
    rcases ratioCheck_cases V i j k with ⟨_, _, hgt⟩ | ⟨he, _⟩ | ⟨he, _⟩
    · exact absurd hk (not_le.mpr hgt)
    · rw [he] at this; exact absurd this (by simp)
    · rw [he] at this; exact absurd this (by simp)
  rcases evalList_ok_or_error ((edgeList numPlayers numItems A).flatMap
      (fun p => (indicesOf numItems A p.1).map
        (fun k => ratioCheck V p.1 p.2 k))) with h | ⟨e, h1, h2⟩
  · exact absurd h hnotok
  · obtain ⟨i', j', k', hpos', heq⟩ := mem_evalEdges_list.mp h2
    rcases ratioCheck_cases V i' j' k' with ⟨he, _, _⟩ | ⟨he, hz⟩ | ⟨he, _⟩
    · rw [he] at heq; exact absurd heq.symm (by simp)
    · exact absurd hz (hden i' j' k' hpos')
    · rw [he] at heq
      obtain rfl : e = .mathDomain := by
        simpa using heq
      rw [evalEdgesE]
      exact h1

/-! ### Facts about the adjustment loop -/

theorem runCycle_congr (V : Mat) (f g : ℕ → ℕ → ℕ) :
    ∀ (l : List (ℕ × ℕ)) (A : Mat) (eps : ℚ),
      (∀ p ∈ l, f p.1 p.2 = g p.1 p.2) →
      runCycle V f A eps l = runCycle V g A eps l := by
  intro l
  induction l with
  | nil => intro A eps _; rfl
  | cons p l ih =>
    intro A eps h
    obtain ⟨u, v⟩ := p
    have hfg : f u v = g u v := h (u, v) (by simp)
    simp only [runCycle]
    rw [hfg]
    exact ih _ _ (fun q hq => h q (by simp [hq]))

theorem colSum_succ (n : ℕ) (A : Mat) (k : ℕ) :
    colSum (n + 1) A k = colSum n A k + A n k := by
  simp [colSum, List.range_succ]

theorem colSum_congr {A B : Mat} {k : ℕ} :
    ∀ numPlayers, (∀ i, i < numPlayers → A i k = B i k) →
      colSum numPlayers A k = colSum numPlayers B k := by
  intro numPlayers h
  rw [colSum, colSum]
  apply congrArg
  apply List.map_congr_left
  intro i hi
  exact h i (List.mem_range.mp hi)

theorem updateMat_same (A : Mat) (p q : ℕ) (x : ℚ) :
    updateMat A p q x p q = x := by
  simp [updateMat]

theorem updateMat_other {A : Mat} {p q i k : ℕ} (x : ℚ)
    (h : ¬(i = p ∧ k = q)) : updateMat A p q x i k = A i k := by
  simp [updateMat, h]

theorem colSum_update (A : Mat) (p q : ℕ) (x : ℚ) :
    ∀ numPlayers, p < numPlayers → ∀ k,
      colSum numPlayers (updateMat A p q x) k =
        if k = q then colSum numPlayers A k + (x - A p q)
        else colSum numPlayers A k := by
  intro numPlayers
  induction numPlayers with
  | zero => intro hp; exact absurd hp (by omega)
  | succ n ihn =>
    intro hp k
    rw [colSum_succ, colSum_succ]
    by_cases hpn : p = n
    · have hrows : colSum n (updateMat A p q x) k = colSum n A k := by
        apply colSum_congr
        intro i hi
        exact updateMat_other x (fun hc => by omega)
      rw [hrows]
      by_cases hk : k = q
      · rw [if_pos hk]
        have hlast : updateMat A p q x n k = x := by
          simp [updateMat, hpn.symm, hk]
        rw [hlast, hpn, hk]
        ring
      · rw [if_neg hk, updateMat_other x (fun hc => hk hc.2)]
    · have hp' : p < n := by omega
      rw [ihn hp' k, updateMat_other x (fun hc => hpn hc.1.symm)]
      by_cases hk : k = q
      · rw [if_pos hk, if_pos hk]; ring
      · rw [if_neg hk, if_neg hk]

/-- One loop iteration conserves every column total (the same delta is added
at row `v` and removed at row `u`). -/
theorem colSum_step {numPlayers : ℕ} (A : Mat) (u v t : ℕ) (d : ℚ)
    (hu : u < numPlayers) (hv : v < numPlayers) (k : ℕ) :
    colSum numPlayers
      (updateMat (updateMat A v t (A v t + d)) u t
        (updateMat A v t (A v t + d) u t - d)) k = colSum numPlayers A k := by
  set A1 := updateMat A v t (A v t + d) with hA1
  rw [colSum_update A1 u t _ numPlayers hu k, colSum_update A v t _ numPlayers hv k]
  by_cases hk : k = t
  · rw [if_pos hk, if_pos hk]
    ring
  · rw [if_neg hk, if_neg hk]

theorem runCycle_colSum (V : Mat) (itemOf : ℕ → ℕ → ℕ) (numPlayers : ℕ) :
    ∀ (l : List (ℕ × ℕ)) (A : Mat) (eps : ℚ),
      (∀ p ∈ l, p.1 < numPlayers ∧ p.2 < numPlayers) →
      ∀ k, colSum numPlayers (runCycle V itemOf A eps l) k =
        colSum numPlayers A k := by
  intro l
  induction l with
  | nil => intro A eps _ k; rfl
  | cons p l ih =>
    intro A eps h k
    obtain ⟨u, v⟩ := p
    obtain ⟨hu, hv⟩ := h (u, v) (by simp)
    simp only [runCycle]
    rw [ih _ _ (fun q hq => h q (by simp [hq])) k]
    exact colSum_step A u v (itemOf u v) (eps * V v (itemOf u v) / V u (itemOf u v)) hu hv k

/-- Positions not touched by any processed pair keep their input value. -/
theorem runCycle_untouched (V : Mat) (itemOf : ℕ → ℕ → ℕ) :
    ∀ (l : List (ℕ × ℕ)) (A : Mat) (eps : ℚ) (p t : ℕ),
      (∀ e ∈ l, ¬(t = itemOf e.1 e.2 ∧ (p = e.1 ∨ p = e.2))) →
      runCycle V itemOf A eps l p t = A p t := by
  intro l
  induction l with
  | nil => intro A eps p t _; rfl
  | cons e l ih =>
    intro A eps p t h
    obtain ⟨u, v⟩ := e
    have he := h (u, v) (by simp)
    simp only [runCycle]
    rw [ih _ _ _ _ (fun q hq => h q (by simp [hq]))]
    rw [updateMat_other, updateMat_other]
    · intro ⟨h1, h2⟩
      exact he ⟨h2, Or.inr h1⟩
    · intro ⟨h1, h2⟩
      exact he ⟨h2, Or.inl h1⟩

/-! ### Enumeration of the cycles a two-player graph can yield -/

theorem nodup_lt_two_length {l : List ℕ} (h : l.Nodup) (h2 : ∀ x ∈ l, x < 2) :
    l.length ≤ 2 := by
  have hcard : l.length = l.toFinset.card := (List.toFinset_card_of_nodup h).symm
  rw [hcard]
  have hsub : l.toFinset ⊆ Finset.range 2 := by
    intro x hx
    exact Finset.mem_range.mpr (h2 x (List.mem_toFinset.mp hx))
  simpa using Finset.card_le_card hsub

/-- In a two-player graph, the only simple negative cycles are `[0,1,0]`
and `[1,0,1]`. -/
theorem twoNode_cycles {numItems : ℕ} {V A : Mat} {c : List ℕ}
    (hneg : IsNegCycle 2 numItems V A c) (hnd : c.dropLast.Nodup) :
    c = [0, 1, 0] ∨ c = [1, 0, 1] := by
  obtain ⟨⟨hlen, hcl, hch⟩, _⟩ := hneg
  have hlt : ∀ x ∈ c, x < 2 := chain_nodes_lt c hlen hch
  have hdl : ∀ x ∈ c.dropLast, x < 2 := fun x hx =>
    hlt x ((List.dropLast_sublist c).subset hx)
  have hlen3 : c.length ≤ 3 := by
    have h1 := nodup_lt_two_length hnd hdl
    have h2 : c.dropLast.length = c.length - 1 := List.length_dropLast c
    omega
  interval_cases hle : c.length
  · obtain ⟨a, b, rfl⟩ := List.length_eq_two.mp hle
    have hab : a = b := by simpa using hcl
    obtain ⟨_, _, hne, _⟩ := List.chain'_pair.mp hch
    exact absurd hab hne
  · obtain ⟨a, b, d, rfl⟩ := List.length_eq_three.mp hle
    have had : a = d := by simpa using hcl
    subst had
    rw [List.chain'_cons, List.chain'_cons] at hch
    obtain ⟨⟨ha2, hb2, hab, _⟩, ⟨_, _, hba, _⟩, _⟩ := hch
    have : (a = 0 ∧ b = 1) ∨ (a = 1 ∧ b = 0) := by omega
    rcases this with ⟨rfl, rfl⟩ | ⟨rfl, rfl⟩
    · exact .inl rfl
    · exact .inr rfl

/-- If the graph has no edge at all there is no negative cycle. -/
theorem pareto_of_no_edge {numPlayers numItems : ℕ} {V A : Mat}
    (h : ∀ i j, ¬ IsEdge numPlayers numItems A i j) :
    is_pareto_efficient numPlayers numItems V A := by
  rintro ⟨c, ⟨⟨hlen, _, hch⟩, _⟩⟩
  match c, hlen with
  | x :: y :: rest, _ =>
    exact h x y (List.chain'_cons.mp hch).1

/-! ### Concrete inputs (all taken from the source's doctests or built to
satisfy the documented input contract) -/

/-- A `list[list[float]]` literal as a matrix (missing entries read `0`). -/
def matOf (rows : List (List ℚ)) : Mat :=
  fun i k => (rows.getD i []).getD k 0

/-- Valuations of the first `check_and_improve` doctest. -/
def vA : Mat := matOf [[10, 20, 30, 40], [40, 30, 20, 10]]

/-- Allocations of the first `check_and_improve` doctest (`0.7 = mkRat 7 10`
and so on, written in normal form so that the kernel can evaluate them). -/
def aA : Mat := matOf [[1, mkRat 7 10, 1, 0], [0, mkRat 3 10, 0, 0]]

/-- Valuations of the second `is_pareto_efficient` doctest (efficient). -/
def vB : Mat := matOf [[50, 1], [1, 100]]

/-- Allocations of the second `is_pareto_efficient` doctest (efficient). -/
def aB : Mat := matOf [[1, 0], [0, 1]]

/-- A single-player input. -/
def vC : Mat := matOf [[1]]

/-- A single-player allocation. -/
def aC : Mat := matOf [[1]]

/-- Valuations with an extreme ratio, to overshoot the held share. -/
def vD : Mat := matOf [[1, 10000], [10000, 1]]

/-- A valid allocation (entries in `[0,1]`, columns summing to `1`) holding
only `1/2000` of the critical items. -/
def aD : Mat := matOf [[mkRat 1 2000, mkRat 1999 2000], [mkRat 1999 2000, mkRat 1 2000]]

/-- Valuations that are all negative: every evaluated ratio is `1 > 0`, so no
`math.log` failure occurs. -/
def vE : Mat := matOf [[-1], [-1]]

/-- Allocations making both players hold the single item. -/
def aE : Mat := matOf [[1], [1]]

/-- A zero valuation entry that IS referenced in a ratio numerator. -/
def vF : Mat := matOf [[0], [1]]

/-- Player `0` holds the item, player `1` does not. -/
def aF : Mat := matOf [[1], [0]]

/-- Small symmetric valuations with a profitable swap. -/
def vW : Mat := matOf [[1, 4], [4, 1]]

/-- The crossed allocation for `vW` (inefficient). -/
def aW : Mat := matOf [[1, 0], [0, 1]]

/-- One-player valuations for degenerate witnesses. -/
def vG : Mat := matOf [[1]]

/-- All-zero allocation (no edges). -/
def aG : Mat := matOf [[0]]

/-- An allocation sharing the nonzero pattern of `aC` with different values. -/
def aH : Mat := matOf [[mkRat 1 2]]

/-! ### Decidability of the rational-side predicates -/

instance (numPlayers numItems : ℕ) (A : Mat) (i j : ℕ) :
    Decidable (IsEdge numPlayers numItems A i j) :=
  inferInstanceAs (Decidable (i < numPlayers ∧ j < numPlayers ∧ i ≠ j ∧
    indicesOf numItems A i ≠ []))

/-- Closed chains of the shape `[a, b, a]` out of two explicit edges. -/
theorem closedChain_three {numPlayers numItems : ℕ} {A : Mat} {a b d : ℕ}
    (h1 : IsEdge numPlayers numItems A a b)
    (h2 : IsEdge numPlayers numItems A b d) (had : a = d) :
    ClosedChain numPlayers numItems A [a, b, d] :=
  ⟨by simp, by simp [had], List.chain'_cons.mpr ⟨h1, List.chain'_pair.mpr h2⟩⟩

instance (numPlayers numItems : ℕ) (A : Mat) (i j k : ℕ) :
    Decidable (EvalPos numPlayers numItems A i j k) :=
  inferInstanceAs (Decidable ((i, j) ∈ edgeList numPlayers numItems A ∧
    k ∈ indicesOf numItems A i))

instance (numPlayers numItems : ℕ) (V : Mat) :
    Decidable (VPos numPlayers numItems V) :=
  inferInstanceAs (Decidable (∀ i ∈ List.range numPlayers,
    ∀ k ∈ List.range numItems, 0 < V i k))

instance (numPlayers numItems : ℕ) (A : Mat) :
    Decidable (AIn01 numPlayers numItems A) :=
  inferInstanceAs (Decidable (∀ i ∈ List.range numPlayers,
    ∀ k ∈ List.range numItems, 0 ≤ A i k ∧ A i k ≤ 1))

/-! ### Helper introduction/elimination rules for `CheckImprove` -/

/-- Positive valuations never trip the division or log checks. -/
theorem evalEdgesE_ok_of_VPos {numPlayers numItems : ℕ} {V A : Mat}
    (hV : VPos numPlayers numItems V) :
    evalEdgesE numPlayers numItems V A = .ok () := by
  rw [evalEdgesE, evalList_ok_iff]
  intro x hx
  obtain ⟨i, j, k, ⟨hij, hk⟩, rfl⟩ := mem_evalEdges_list.mp hx
  obtain ⟨hi, hj, _, _⟩ := mem_edgeList.mp hij
  obtain ⟨hkn, _⟩ := mem_indicesOf.mp hk
  rcases ratioCheck_cases V i j k with ⟨he, _, _⟩ | ⟨_, hz⟩ | ⟨_, hle⟩
  · exact he
  · exact absurd hz (ne_of_gt (hV.pos hj hkn))
  · exact absurd hle
      (not_le.mpr (div_pos (hV.pos hi hkn) (hV.pos hj hkn)))

theorem checkImprove_retMat {numPlayers numItems : ℕ} {V A : Mat} {c : List ℕ}
    (hok : evalEdgesE numPlayers numItems V A = .ok ())
    (hne : edgeList numPlayers numItems A ≠ [])
    (hfc : FoundCycle numPlayers numItems V A
      ((edgeList numPlayers numItems A).headD (0, 0)).1 c) :
    CheckImprove numPlayers numItems V A
      (.retMat (checkImproveMatrix numItems V A c)) :=
  Or.inr (Or.inr (Or.inr ⟨hok, hne, c, hfc, rfl⟩))

theorem checkImprove_retMat_inv {numPlayers numItems : ℕ} {V A m : Mat}
    (h : CheckImprove numPlayers numItems V A (.retMat m)) :
    ∃ c, FoundCycle numPlayers numItems V A
        ((edgeList numPlayers numItems A).headD (0, 0)).1 c ∧
      m = checkImproveMatrix numItems V A c := by
  rcases h with ⟨e, _, hout⟩ | ⟨_, _, hout⟩ | ⟨_, _, _, hout⟩ |
    ⟨_, _, c, hfc, hout⟩
  · exact absurd hout (by simp)
  · exact absurd hout (by simp)
  · exact absurd hout (by simp)
  · exact ⟨c, hfc, by simpa using hout⟩

/-- With edges, positive valuations and no negative cycle, the only outcome is
the uncaught `NetworkXError`. -/
theorem checkImprove_raises_of_efficient {numPlayers numItems : ℕ}
    {V A : Mat} (hok : evalEdgesE numPlayers numItems V A = .ok ())
    (hne : edgeList numPlayers numItems A ≠ [])
    (heff : is_pareto_efficient numPlayers numItems V A) :
    CheckImprove numPlayers numItems V A (.raised .networkXError) ∧
    ∀ out, CheckImprove numPlayers numItems V A out →
      out = .raised .networkXError := by
  have hnc : ¬ ∃ c, IsNegCycle numPlayers numItems V A c ∧
      Reachable numPlayers numItems A
        ((edgeList numPlayers numItems A).headD (0, 0)).1 (c.headD 0) := by
    rintro ⟨c, hc, _⟩
    exact heff ⟨c, hc⟩
  constructor
  · exact Or.inr (Or.inr (Or.inl ⟨hok, hne, hnc, rfl⟩))
  · intro out hout
    rcases hout with ⟨e, he, rfl⟩ | ⟨_, hemp, _⟩ | ⟨_, _, _, rfl⟩ |
      ⟨_, _, c, hfc, _⟩
    · rw [hok] at he
      exact absurd he (by simp)
    · exact absurd hemp hne
    · rfl
    · exact absurd ⟨c, hfc.1⟩ heff

/-- With no edges at all, the only outcome is the uncaught `IndexError`. -/
theorem checkImprove_raises_of_no_edges {numPlayers numItems : ℕ}
    {V A : Mat} (hok : evalEdgesE numPlayers numItems V A = .ok ())
    (hemp : edgeList numPlayers numItems A = []) :
    CheckImprove numPlayers numItems V A (.raised .indexError) ∧
    ∀ out, CheckImprove numPlayers numItems V A out →
      out = .raised .indexError := by
  constructor
  · exact Or.inr (Or.inl ⟨hok, hemp, rfl⟩)
  · intro out hout
    rcases hout with ⟨e, he, rfl⟩ | ⟨_, _, rfl⟩ | ⟨_, hne, _, _⟩ |
      ⟨_, hne, _, _, _⟩
    · rw [hok] at he
      exact absurd he (by simp)
    · rfl
    · exact absurd hemp hne
    · exact absurd hemp hne

/-! ### The claims -/

/-- C1: for every valid input (valuations strictly positive, allocations in
`[0,1]`), `is_pareto_efficient` is true iff the spec's exchange graph (edges
from `A[i][k] > 0`, weights `min ln(V[i][k]/V[j][k])`) has no negative-weight
cycle. -/
theorem c1_pareto_iff_no_spec_neg_cycle (numPlayers numItems : ℕ)
    (V A : Mat) (hV : VPos numPlayers numItems V)
    (hA : AIn01 numPlayers numItems A) :
    (is_pareto_efficient numPlayers numItems V A ↔
      ¬ ∃ c, SpecIsNegCycle numPlayers numItems V A c) := by
  have _ := hV
  have hind := indicesOf_eq_spec hA
  unfold is_pareto_efficient
  exact not_congr (exists_congr fun c =>
    ⟨negCycle_spec_of_src hind c, negCycle_src_of_spec hind c⟩)

/-- Witness for C1 at a concrete valid input (one player, nothing held). -/
theorem c1_pareto_iff_no_spec_neg_cycle_witness :
    VPos 1 1 vG ∧ AIn01 1 1 aG ∧
    (is_pareto_efficient 1 1 vG aG ↔
      ¬ ∃ c, SpecIsNegCycle 1 1 vG aG c) :=
  ⟨by decide, by decide,
    c1_pareto_iff_no_spec_neg_cycle 1 1 vG aG (by decide) (by decide)⟩

/-- C10: `is_pareto_efficient` depends on the allocations only through their
zero/nonzero pattern. -/
theorem c10_zero_pattern_invariance (numPlayers numItems : ℕ)
    (V A1 A2 : Mat)
    (h : ∀ i ∈ List.range numPlayers, ∀ k ∈ List.range numItems,
      (A1 i k ≠ 0 ↔ A2 i k ≠ 0)) :
    (is_pareto_efficient numPlayers numItems V A1 ↔
      is_pareto_efficient numPlayers numItems V A2) := by
  have hind : ∀ i, i < numPlayers →
      indicesOf numItems A1 i = indicesOf numItems A2 i := by
    intro i hi
    apply List.filter_congr
    intro k hk
    simp only [decide_eq_decide]
    exact h i (List.mem_range.mpr hi) k hk
  unfold is_pareto_efficient
  exact not_congr (exists_congr fun c =>
    ⟨negCycle_congr hind c, negCycle_congr (fun i hi => (hind i hi).symm) c⟩)

/-- Witness for C10 at matrices with equal patterns but different values. -/
theorem c10_zero_pattern_invariance_witness :
    (∀ i ∈ List.range 1, ∀ k ∈ List.range 1, (aC i k ≠ 0 ↔ aH i k ≠ 0)) ∧
    (is_pareto_efficient 1 1 vC aC ↔ is_pareto_efficient 1 1 vC aH) :=
  ⟨by decide, c10_zero_pattern_invariance 1 1 vC aC aH (by decide)⟩

/-- C5 (code bug): on a no-edge input (single player), `is_pareto_efficient`
does return true, but `check_and_improve_pareto_effiecient` evaluates
`edges[0][0]` on the empty edge list and the resulting `IndexError` is not the
caught `NetworkXNoCycle`, so the call raises instead of returning `True`. -/
theorem c5_single_player_raises_index_error :
    is_pareto_efficient 1 1 vC aC ∧
    CheckImprove 1 1 vC aC (.raised .indexError) ∧
    (∀ out, CheckImprove 1 1 vC aC out → out = .raised .indexError) := by
  have hok : evalEdgesE 1 1 vC aC = .ok () := evalEdgesE_ok_of_VPos (by decide)
  have hemp : edgeList 1 1 aC = [] := by decide
  obtain ⟨h1, h2⟩ := checkImprove_raises_of_no_edges hok hemp
  refine ⟨?_, h1, h2⟩
  apply pareto_of_no_edge
  rintro i j ⟨hi, hj, hne, _⟩
  omega

/-- C4 (code bug): on an efficient input with edges, `find_negative_cycle`
raises `NetworkXError`, which `except nx.NetworkXNoCycle` does not catch, so
`check_and_improve_pareto_effiecient` raises instead of returning `True`
(every possible outcome is that exception; in particular the boolean `True` is
never returned). -/
theorem c4_efficient_input_raises :
    is_pareto_efficient 2 2 vB aB ∧
    CheckImprove 2 2 vB aB (.raised .networkXError) ∧
    (∀ out, CheckImprove 2 2 vB aB out → out = .raised .networkXError) := by
  have hV : VPos 2 2 vB := by decide
  have heff : is_pareto_efficient 2 2 vB aB := by
    apply pareto_of_min_ge_one hV
    rintro i j ⟨hi, hj, hne, hnn⟩
    interval_cases i <;> interval_cases j
    · omega
    · rw [ratEdgeMin, show indicesOf 2 aB 0 = [0] from by decide]
      norm_num [listMin, minFrom, vB, matOf]
    · rw [ratEdgeMin, show indicesOf 2 aB 1 = [1] from by decide]
      norm_num [listMin, minFrom, vB, matOf]
    · omega
  obtain ⟨h1, h2⟩ := checkImprove_raises_of_efficient
    (evalEdgesE_ok_of_VPos hV) (by decide) heff
  exact ⟨heff, h1, h2⟩

/-- C8: for every emitted edge `(i, j)`, the recorded critical item is the
first (lowest-index) held item attaining the least log ratio, and the edge
weight equals the log ratio at that item — the two independent minimisations
agree, ties included. -/
theorem c8_minimisations_agree (numPlayers numItems : ℕ) (V A : Mat)
    (i j : ℕ) (hedge : IsEdge numPlayers numItems A i j) :
    edgeItem numItems V A i j ∈ indicesOf numItems A i ∧
    minRatioLog numItems V A i j =
      logRatio V i j (edgeItem numItems V A i j) ∧
    (∀ k ∈ indicesOf numItems A i,
      logRatio V i j (edgeItem numItems V A i j) ≤ logRatio V i j k) ∧
    (∀ k ∈ indicesOf numItems A i, k < edgeItem numItems V A i j →
      logRatio V i j (edgeItem numItems V A i j) < logRatio V i j k) := by
  obtain ⟨_, _, _, hne⟩ := hedge
  rcases hl : indicesOf numItems A i with _ | ⟨k0, ks⟩
  · exact absurd hl hne
  have hitem : edgeItem numItems V A i j =
      minKeyFrom (fun k => logRatio V i j k) k0 ks := by
    rw [edgeItem, hl]
    rfl
  obtain ⟨l1, l2, heq, hlt⟩ := minKeyFrom_split (fun k => logRatio V i j k) ks k0
  have hmem : minKeyFrom (fun k => logRatio V i j k) k0 ks ∈ k0 :: ks := by
    rw [heq]
    exact List.mem_append.mpr (Or.inr (List.mem_cons_self _ _))
  obtain ⟨hle0, hles⟩ := minKeyFrom_le (fun k => logRatio V i j k) ks k0
  have hpw : (k0 :: ks).Pairwise (· < ·) := by
    rw [← hl, indicesOf]
    exact (List.pairwise_lt_range numItems).sublist (List.filter_sublist _)
  refine ⟨by rw [hitem]; exact hmem, ?_, ?_, ?_⟩
  · rw [minRatioLog, hitem, hl]
    exact (f_minKeyFrom (fun k => logRatio V i j k) ks k0).symm
  · intro k hk
    rw [hitem]
    rcases List.mem_cons.mp hk with rfl | hk
    · exact hle0
    · exact hles k hk
  · intro k hk hklt
    rw [hitem]
    rw [hitem] at hklt
    rw [heq] at hk hpw
    obtain ⟨_, hpw2, hcross⟩ := List.pairwise_append.mp hpw
    rcases List.mem_append.mp hk with hk1 | hk2
    · exact hlt k hk1
    · rcases List.mem_cons.mp hk2 with rfl | hk2
      · exact absurd hklt (lt_irrefl _)
      · exact absurd hklt
          (not_lt.mpr ((List.pairwise_cons.mp hpw2).1 k hk2).le)

/-- Witness for C8 at the edge `(0, 1)` of a concrete two-player input. -/
theorem c8_minimisations_agree_witness :
    edgeItem 2 vW aW 0 1 ∈ indicesOf 2 aW 0 ∧
    minRatioLog 2 vW aW 0 1 = logRatio vW 0 1 (edgeItem 2 vW aW 0 1) ∧
    (∀ k ∈ indicesOf 2 aW 0,
      logRatio vW 0 1 (edgeItem 2 vW aW 0 1) ≤ logRatio vW 0 1 k) ∧
    (∀ k ∈ indicesOf 2 aW 0, k < edgeItem 2 vW aW 0 1 →
      logRatio vW 0 1 (edgeItem 2 vW aW 0 1) < logRatio vW 0 1 k) :=
  c8_minimisations_agree 2 2 vW aW 0 1 (by decide)

/-- The cycle `[0, 1, 0]` is one `find_negative_cycle` can return on the
`vW`/`aW` input. -/
theorem foundCycle_W : FoundCycle 2 2 vW aW 0 [0, 1, 0] := by
  refine ⟨?_, by decide, Relation.ReflTransGen.refl⟩
  rw [isNegCycle_iff_prod (show VPos 2 2 vW by decide)]
  refine ⟨closedChain_three (by decide) (by decide) rfl, ?_⟩
  rw [cycleProd,
    show ([0, 1, 0] : List ℕ).zip [0, 1, 0].tail = [(0, 1), (1, 0)] from rfl,
    List.map_cons, List.map_cons, List.map_nil]
  rw [ratEdgeMin, show indicesOf 2 aW 0 = [0] from by decide]
  rw [ratEdgeMin, show indicesOf 2 aW 1 = [1] from by decide]
  norm_num [listMin, minFrom, vW, matOf]

/-- `check_and_improve` on the `vW`/`aW` input can return the adjustment along
`[0, 1, 0]`. -/
theorem checkImprove_W : CheckImprove 2 2 vW aW
    (.retMat (checkImproveMatrix 2 vW aW [0, 1, 0])) := by
  have h := fun hfc => @checkImprove_retMat 2 2 vW aW [0, 1, 0]
    (evalEdgesE_ok_of_VPos (by decide)) (by decide) hfc
  rw [show ((edgeList 2 2 aW).headD (0, 0)).1 = 0 from by decide] at h
  exact h foundCycle_W

/-- C3: whenever `check_and_improve_pareto_effiecient` returns a matrix, every
item column's total is exactly conserved (in exact arithmetic). -/
theorem c3_column_totals_conserved (numPlayers numItems : ℕ)
    (V A A' : Mat)
    (h : CheckImprove numPlayers numItems V A (.retMat A')) :
    ∀ k, colSum numPlayers A' k = colSum numPlayers A k := by
  obtain ⟨c, hfc, rfl⟩ := checkImprove_retMat_inv h
  intro k
  rw [checkImproveMatrix]
  apply runCycle_colSum
  intro p hp
  obtain ⟨hlen, _, hch⟩ := hfc.1.1
  have hmem := List.of_mem_zip hp
  exact ⟨chain_nodes_lt c hlen hch p.1 hmem.1,
    chain_nodes_lt c hlen hch p.2 (List.mem_of_mem_tail hmem.2)⟩

/-- Witness for C3 at a concrete returned matrix. -/
theorem c3_column_totals_conserved_witness :
    colSum 2 (checkImproveMatrix 2 vW aW [0, 1, 0]) 0 = colSum 2 aW 0 ∧
    colSum 2 (checkImproveMatrix 2 vW aW [0, 1, 0]) 1 = colSum 2 aW 1 := by
  have h := c3_column_totals_conserved 2 2 vW aW
    (checkImproveMatrix 2 vW aW [0, 1, 0]) checkImprove_W
  exact ⟨h 0, h 1⟩

/-- C6: whenever `check_and_improve_pareto_effiecient` returns a matrix, it is
the input with only positions touched by the cycle's critical items modified;
every other position is unchanged. -/
theorem c6_only_touched_entries_change (numPlayers numItems : ℕ)
    (V A A' : Mat)
    (h : CheckImprove numPlayers numItems V A (.retMat A')) :
    ∃ c, FoundCycle numPlayers numItems V A
        ((edgeList numPlayers numItems A).headD (0, 0)).1 c ∧
      A' = checkImproveMatrix numItems V A c ∧
      ∀ p t, ¬ Touched numItems V A c p t → A' p t = A p t := by
  obtain ⟨c, hfc, rfl⟩ := checkImprove_retMat_inv h
  refine ⟨c, hfc, rfl, ?_⟩
  intro p t hnt
  rw [checkImproveMatrix]
  apply runCycle_untouched
  intro e he hcon
  exact hnt ⟨e, he, hcon⟩

/-- Witness for C6 at a concrete returned matrix. -/
theorem c6_only_touched_entries_change_witness :
    ∃ c, FoundCycle 2 2 vW aW ((edgeList 2 2 aW).headD (0, 0)).1 c ∧
      checkImproveMatrix 2 vW aW [0, 1, 0] = checkImproveMatrix 2 vW aW c ∧
      ∀ p t, ¬ Touched 2 vW aW c p t →
        checkImproveMatrix 2 vW aW [0, 1, 0] p t = aW p t :=
  c6_only_touched_entries_change 2 2 vW aW
    (checkImproveMatrix 2 vW aW [0, 1, 0]) checkImprove_W

/-- C7 (amended): when every evaluated denominator is nonzero and some
evaluated ratio `V[i][k]/V[j][k]` (for `k` held by `i` on an emitted edge) is
nonpositive, edge construction stops with the math-domain error (`ValueError`,
the `DomainError` analogue), and both entry points propagate it immediately,
with no partial result. -/
theorem c7_nonpositive_ratio_raises (numPlayers numItems : ℕ) (V A : Mat)
    (hden : ∀ i j k, EvalPos numPlayers numItems A i j k → V j k ≠ 0)
    (hbad : ∃ i j k, EvalPos numPlayers numItems A i j k ∧ V i k / V j k ≤ 0) :
    evalEdgesE numPlayers numItems V A = .error .mathDomain ∧
    is_pareto_efficientE numPlayers numItems V A = .error .mathDomain ∧
    (∀ out, CheckImprove numPlayers numItems V A out →
      out = .raised .mathDomain) := by
  have herr := evalEdgesE_mathDomain hden hbad
  refine ⟨herr, ?_, ?_⟩
  · rw [is_pareto_efficientE, herr]
    rfl
  · intro out hout
    rcases hout with ⟨e, he, rfl⟩ | ⟨hok, _, _⟩ | ⟨hok, _, _, _⟩ | ⟨hok, _, _⟩
    · rw [herr] at he
      have : PyErr.mathDomain = e := by simpa using he
      rw [← this]
    · rw [herr] at hok
      exact absurd hok (by simp)
    · rw [herr] at hok
      exact absurd hok (by simp)
    · rw [herr] at hok
      exact absurd hok (by simp)

/-- Witness for C7's amended statement: a zero valuation entry whose ratio is
evaluated, with all evaluated denominators nonzero. -/
theorem c7_nonpositive_ratio_raises_witness :
    (∀ i j k, EvalPos 2 1 aF i j k → vF j k ≠ 0) ∧
    (EvalPos 2 1 aF 0 1 0 ∧ vF 0 0 / vF 1 0 ≤ 0) ∧
    evalEdgesE 2 1 vF aF = .error .mathDomain ∧
    is_pareto_efficientE 2 1 vF aF = .error .mathDomain ∧
    (∀ out, CheckImprove 2 1 vF aF out → out = .raised .mathDomain) := by
  have hden : ∀ i j k, EvalPos 2 1 aF i j k → vF j k ≠ 0 := by
    rintro i j k ⟨hij, hk⟩
    rw [show edgeList 2 1 aF = [(0, 1)] from by decide] at hij
    obtain ⟨rfl, rfl⟩ := Prod.mk.injEq .. |>.mp (List.mem_singleton.mp hij)
    rw [show indicesOf 1 aF 0 = [0] from by decide] at hk
    rw [List.mem_singleton.mp hk]
    decide
  have hbad : EvalPos 2 1 aF 0 1 0 ∧ vF 0 0 / vF 1 0 ≤ 0 :=
    ⟨by decide, by norm_num [vF, matOf]⟩
  obtain ⟨h1, h2, h3⟩ := c7_nonpositive_ratio_raises 2 1 vF aF hden
    ⟨0, 1, 0, hbad.1, hbad.2⟩
  exact ⟨hden, hbad, h1, h2, h3⟩

/-- C7 (counterexample to the claim as stated): with `V = [[-1], [-1]]` and
`A = [[1], [1]]`, the entry `V[0][0] = -1 ≤ 0` is referenced in the evaluated
ratio `V[0][0]/V[1][0] = 1 > 0`, so no `DomainError` (and no error at all) is
raised during edge construction, and neither entry point can raise a
math-domain or division error. -/
theorem c7_negative_entries_no_error :
    vE 0 0 ≤ 0 ∧ aE 0 0 ≠ 0 ∧ EvalPos 2 1 aE 0 1 0 ∧
    evalEdgesE 2 1 vE aE = .ok () ∧
    is_pareto_efficientE 2 1 vE aE = .ok (is_pareto_efficient 2 1 vE aE) ∧
    (∀ out, CheckImprove 2 1 vE aE out →
      out ≠ .raised .mathDomain ∧ out ≠ .raised .zeroDivision) := by
  have hrc : ∀ i j : ℕ, i < 2 → j < 2 → ratioCheck vE i j 0 = .ok () := by
    intro i j hi hj
    rw [ratioCheck]
    rw [if_neg (by interval_cases j <;> norm_num [vE, matOf])]
    rw [if_neg (by interval_cases i <;> interval_cases j <;>
      norm_num [vE, matOf])]
  have hok : evalEdgesE 2 1 vE aE = .ok () := by
    rw [evalEdgesE, show edgeList 2 1 aE = [(0, 1), (1, 0)] from by decide]
    simp only [List.flatMap_cons, List.flatMap_nil]
    rw [show indicesOf 1 aE 0 = [0] from by decide,
      show indicesOf 1 aE 1 = [0] from by decide]
    simp only [List.map_cons, List.map_nil, List.append_nil,
      List.cons_append, List.nil_append]
    rw [hrc 0 1 (by omega) (by omega), hrc 1 0 (by omega) (by omega)]
    rfl
  refine ⟨by norm_num [vE, matOf], by decide, by decide, hok, ?_, ?_⟩
  · rw [is_pareto_efficientE, hok]
    rfl
  · intro out hout
    rcases hout with ⟨e, he, rfl⟩ | ⟨_, _, rfl⟩ | ⟨_, _, _, rfl⟩ |
      ⟨_, _, c, _, rfl⟩
    · rw [hok] at he
      exact absurd he (by simp)
    · exact ⟨by simp, by simp⟩
    · exact ⟨by simp, by simp⟩
    · exact ⟨by simp, by simp⟩

/-! ### Concrete evaluation at the first `check_and_improve` doctest input -/

theorem itemA01 : edgeItem 4 vA aA 0 1 = 0 := by
  rw [edgeItem_eq_rat (ratios_pos (show VPos 2 4 vA from by decide)
    (show (0 : ℕ) < 2 from by omega) (show (1 : ℕ) < 2 from by omega))]
  rw [ratEdgeItem, show indicesOf 4 aA 0 = [0, 1, 2] from by decide]
  norm_num [minKeyD, minKeyFrom, vA, matOf]

theorem itemA10 : edgeItem 4 vA aA 1 0 = 1 := by
  rw [edgeItem_eq_rat (ratios_pos (show VPos 2 4 vA from by decide)
    (show (1 : ℕ) < 2 from by omega) (show (0 : ℕ) < 2 from by omega))]
  rw [ratEdgeItem, show indicesOf 4 aA 1 = [1] from by decide]
  norm_num [minKeyD, minKeyFrom, vA, matOf]

theorem foundCycle_A : FoundCycle 2 4 vA aA 0 [0, 1, 0] := by
  refine ⟨?_, by decide, Relation.ReflTransGen.refl⟩
  rw [isNegCycle_iff_prod (show VPos 2 4 vA from by decide)]
  refine ⟨closedChain_three (by decide) (by decide) rfl, ?_⟩
  rw [cycleProd,
    show ([0, 1, 0] : List ℕ).zip [0, 1, 0].tail = [(0, 1), (1, 0)] from rfl,
    List.map_cons, List.map_cons, List.map_nil]
  rw [ratEdgeMin, show indicesOf 4 aA 0 = [0, 1, 2] from by decide]
  rw [ratEdgeMin, show indicesOf 4 aA 1 = [1] from by decide]
  norm_num [listMin, minFrom, vA, matOf, min_def]

theorem utilA0_cycle010 :
    utility 4 vA (checkImproveMatrix 4 vA aA [0, 1, 0]) 0 <
      utility 4 vA aA 0 := by
  rw [show checkImproveMatrix 4 vA aA [0, 1, 0]
      = runCycle vA (edgeItem 4 vA aA) aA (1 / 1000) [(0, 1), (1, 0)] from rfl]
  simp only [runCycle, itemA01, itemA10]
  rw [utility, utility, show List.range 4 = [0, 1, 2, 3] from by decide]
  simp only [List.map_cons, List.map_nil, List.sum_cons, List.sum_nil]
  norm_num [updateMat, vA, aA, matOf, Rat.mkRat_eq_div]

theorem utilA0_cycle101 :
    utility 4 vA (checkImproveMatrix 4 vA aA [1, 0, 1]) 0 <
      utility 4 vA aA 0 := by
  rw [show checkImproveMatrix 4 vA aA [1, 0, 1]
      = runCycle vA (edgeItem 4 vA aA) aA (1 / 1000) [(1, 0), (0, 1)] from rfl]
  simp only [runCycle, itemA01, itemA10]
  rw [utility, utility, show List.range 4 = [0, 1, 2, 3] from by decide]
  simp only [List.map_cons, List.map_nil, List.sum_cons, List.sum_nil]
  norm_num [updateMat, vA, aA, matOf, Rat.mkRat_eq_div]

/-- C2 (code bug): on the source's own first doctest input, every cycle the
improver can act on contains player `0`, and the returned allocation STRICTLY
LOWERS player `0`'s utility — the transfer direction/factor is inverted, so
the cycle trade is not the documented Pareto improvement. -/
theorem c2_cycle_player_utility_decreases :
    FoundCycle 2 4 vA aA 0 [0, 1, 0] ∧
    (∀ c, FoundCycle 2 4 vA aA 0 c → 0 ∈ c ∧
      utility 4 vA (checkImproveMatrix 4 vA aA c) 0 < utility 4 vA aA 0) := by
  refine ⟨foundCycle_A, ?_⟩
  intro c hfc
  rcases twoNode_cycles hfc.1 hfc.2.1 with rfl | rfl
  · exact ⟨by decide, utilA0_cycle010⟩
  · exact ⟨by decide, utilA0_cycle101⟩

/-! ### Concrete evaluation at the overshooting input -/

theorem itemD01 : edgeItem 2 vD aD 0 1 = 0 := by
  rw [edgeItem_eq_rat (ratios_pos (show VPos 2 2 vD from by decide)
    (show (0 : ℕ) < 2 from by omega) (show (1 : ℕ) < 2 from by omega))]
  rw [ratEdgeItem, show indicesOf 2 aD 0 = [0, 1] from by decide]
  norm_num [minKeyD, minKeyFrom, vD, matOf]

theorem itemD10 : edgeItem 2 vD aD 1 0 = 1 := by
  rw [edgeItem_eq_rat (ratios_pos (show VPos 2 2 vD from by decide)
    (show (1 : ℕ) < 2 from by omega) (show (0 : ℕ) < 2 from by omega))]
  rw [ratEdgeItem, show indicesOf 2 aD 1 = [0, 1] from by decide]
  norm_num [minKeyD, minKeyFrom, vD, matOf]

theorem foundCycle_D : FoundCycle 2 2 vD aD 0 [0, 1, 0] := by
  refine ⟨?_, by decide, Relation.ReflTransGen.refl⟩
  rw [isNegCycle_iff_prod (show VPos 2 2 vD from by decide)]
  refine ⟨closedChain_three (by decide) (by decide) rfl, ?_⟩
  rw [cycleProd,
    show ([0, 1, 0] : List ℕ).zip [0, 1, 0].tail = [(0, 1), (1, 0)] from rfl,
    List.map_cons, List.map_cons, List.map_nil]
  rw [ratEdgeMin, show indicesOf 2 aD 0 = [0, 1] from by decide]
  rw [ratEdgeMin, show indicesOf 2 aD 1 = [0, 1] from by decide]
  norm_num [listMin, minFrom, vD, matOf, min_def]

theorem entryD_cycle010 : checkImproveMatrix 2 vD aD [0, 1, 0] 0 0 < 0 := by
  rw [show checkImproveMatrix 2 vD aD [0, 1, 0]
      = runCycle vD (edgeItem 2 vD aD) aD (1 / 1000) [(0, 1), (1, 0)] from rfl]
  simp only [runCycle, itemD01, itemD10]
  norm_num [updateMat, vD, aD, matOf, Rat.mkRat_eq_div]

theorem entryD_cycle101 : checkImproveMatrix 2 vD aD [1, 0, 1] 1 1 < 0 := by
  rw [show checkImproveMatrix 2 vD aD [1, 0, 1]
      = runCycle vD (edgeItem 2 vD aD) aD (1 / 1000) [(1, 0), (0, 1)] from rfl]
  simp only [runCycle, itemD01, itemD10]
  norm_num [updateMat, vD, aD, matOf, Rat.mkRat_eq_div]

/-- C9: an input satisfying the documented contract (positive valuations,
allocations in `[0,1]` with unit column sums) on which every matrix
`check_and_improve_pareto_effiecient` can return has an entry strictly below
`0`: the transferred amount `epsilon * V[v][item]/V[u][item] = 10` is never
clamped to the `1/2000` share player `u` actually holds. -/
theorem c9_returned_matrix_out_of_range :
    VPos 2 2 vD ∧ AIn01 2 2 aD ∧ colSum 2 aD 0 = 1 ∧ colSum 2 aD 1 = 1 ∧
    CheckImprove 2 2 vD aD (.retMat (checkImproveMatrix 2 vD aD [0, 1, 0])) ∧
    (∀ m, CheckImprove 2 2 vD aD (.retMat m) →
      ∃ i ∈ List.range 2, ∃ k ∈ List.range 2, m i k < 0 ∨ 1 < m i k) := by
  have hpos : CheckImprove 2 2 vD aD
      (.retMat (checkImproveMatrix 2 vD aD [0, 1, 0])) := by
    have h := fun hfc => @checkImprove_retMat 2 2 vD aD [0, 1, 0]
      (evalEdgesE_ok_of_VPos (by decide)) (by decide) hfc
    rw [show ((edgeList 2 2 aD).headD (0, 0)).1 = 0 from by decide] at h
    exact h foundCycle_D
  have hcol0 : colSum 2 aD 0 = 1 := by
    rw [colSum, show List.range 2 = [0, 1] from by decide]
    simp only [List.map_cons, List.map_nil, List.sum_cons, List.sum_nil]
    norm_num [aD, matOf, Rat.mkRat_eq_div]
  have hcol1 : colSum 2 aD 1 = 1 := by
    rw [colSum, show List.range 2 = [0, 1] from by decide]
    simp only [List.map_cons, List.map_nil, List.sum_cons, List.sum_nil]
    norm_num [aD, matOf, Rat.mkRat_eq_div]
  refine ⟨by decide, by decide, hcol0, hcol1, hpos, ?_⟩
  intro m hm
  obtain ⟨c, hfc, rfl⟩ := checkImprove_retMat_inv hm
  rcases twoNode_cycles hfc.1 hfc.2.1 with rfl | rfl
  · exact ⟨0, by decide, 0, by decide, Or.inl entryD_cycle010⟩
  · exact ⟨1, by decide, 1, by decide, Or.inl entryD_cycle101⟩

end Question3
